import Mathlib

/-!
Verification of the `Hasher` interface (`src/Core/Source/Hash/Hash.h`,
`src/Core/Source/Hash/Hash.cpp`) of dropbox/pilot.

The repository code under `src/` is a thin C-linkage wrapper around
`SpookyHash` (declared in `SpookyV2.h`, which is not part of `src/`).
The wrapper reinterprets the opaque `Hasher` storage as the `SpookyHash`
state (`get`), forwards every `Hasher_Mix_*` call to
`SpookyHash::Update(&value, sizeof(value))`, forwards `Hasher_Final` to
`SpookyHash::Final`, and initializes with the fixed seed pair
`Init(0, 0xc4133)`.

Since `SpookyV2.h` / `SpookyV2.cpp` are not under `src/`, the streaming
hash itself (`Init`/`Update`/`Final`) is modelled from the specification:
a block-based streaming hash with
  - a small fixed set of 64-bit running state words, initialized as a
    fixed deterministic function of a seed pair,
  - a fixed-size pending-byte buffer (byte-count < block size between
    calls; a full block is folded into the running state immediately),
  - a total-length counter,
  - a finalization pass that folds the leftover bytes and the total
    length into the running state (a pure read: it never mutates the
    stored state) and reduces it to a 128-bit pair.
The specification leaves the concrete permutation to the implementer
("the implementer is free to choose" the mixing constants), so the block
fold below is one concrete choice of rotations, additions and XORs on a
two-lane 64-bit state with a 96-byte block, as in the spec's example.
All machine arithmetic is `Nat` reduced mod `2 ^ 64`; bytes are `Nat`
values below `256`.
-/

/-- Modelled from the spec: the block size, "the fixed number of bytes the
algorithm mixes in one fold step"; the spec's example figure for a
two-lane 64-bit design ("e.g. 96 bytes"). `SpookyV2.h` is missing from
`src/`, so the figure is taken from the spec. -/
def blockSize : Nat := 96

/-- Modelled from the spec: the `SpookyHash` state type that the opaque
`Hasher` storage holds (`SpookyV2.h` is not under `src/`). Per the spec's
data model it consists of the 64-bit running state words (two lanes
here), the pending-byte buffer (its length is the spec's byte-count),
the total-length counter, and the seed pair fixed at `Init` time. -/
structure SpookyHash where
  lane1 : Nat
  lane2 : Nat
  buf : List Nat
  totalLen : Nat
  seed1 : Nat
  seed2 : Nat
  deriving DecidableEq, Repr

/-- The opaque `Hasher` storage of `Hash.h`, reinterpreted as the hasher
state exactly as the wrapper's `get` does. -/
abbrev Hasher := SpookyHash

/-- Left rotation of a 64-bit word (input reduced mod `2 ^ 64`). -/
def rotl64 (x n : Nat) : Nat :=
  ((x % 2 ^ 64) <<< n) % 2 ^ 64 + (x % 2 ^ 64) >>> (64 - n)

/-- Modelled from the spec: the non-linear mixing step applied per 64-bit
word of a block, built from "rotations, additions, XORs" as the spec's
algorithm shape prescribes (the concrete constants being the
implementer's choice). -/
def foldWord (p : Nat × Nat) (w : Nat) : Nat × Nat :=
  let a := (rotl64 (Nat.xor p.1 (w % 2 ^ 64)) 23 + p.2) % 2 ^ 64
  let b := Nat.xor (rotl64 p.2 31) a
  (a, b)

/-- Little-endian base-256 digits: the `n`-byte little-endian
representation of `v`, exactly the bytes `Update(&value, n)` reads on
the little-endian hosts the interface commits to. -/
def leBytes : Nat → Nat → List Nat
  | 0, _ => []
  | n + 1, v => v % 256 :: leBytes n (v / 256)

/-- Reassemble a little-endian byte list into one word. -/
def wordOfBytes (bs : List Nat) : Nat :=
  bs.foldr (fun b acc => b % 256 + 256 * acc) 0

/-- Chunk a byte list into 64-bit little-endian words (fuel-based so that
it reduces definitionally; the fuel is the list length). -/
def words64Aux : Nat → List Nat → List Nat
  | 0, _ => []
  | _, [] => []
  | fuel + 1, b :: rest => wordOfBytes (b :: rest.take 7) :: words64Aux fuel (rest.drop 7)

/-- Chunk a byte list into 64-bit little-endian words. -/
def words64 (bs : List Nat) : List Nat :=
  words64Aux bs.length bs

/-- Modelled from the spec: the fold of one full block into the running
state words — the block's bytes are taken as 64-bit little-endian words
and mixed into the two lanes word by word. -/
def foldBlock (p : Nat × Nat) (block : List Nat) : Nat × Nat :=
  (words64 block).foldl foldWord p

/-- Modelled from the spec: `SpookyHash::Init(seed1, seed2)` — establishes
the initial running-state words as a fixed deterministic function of the
two seeds and empties the buffer and counters. -/
def SpookyHash.Init (seed1 seed2 : Nat) : SpookyHash :=
  { lane1 := seed1 % 2 ^ 64
    lane2 := seed2 % 2 ^ 64
    buf := []
    totalLen := 0
    seed1 := seed1 % 2 ^ 64
    seed2 := seed2 % 2 ^ 64 }

/-- Modelled from the spec: appending one byte to the pending buffer —
"if the buffer reaches the algorithm's block size, the block is folded
into the running state and the buffer is reset"; the total-length
counter always advances by one. -/
def pushByte (st : SpookyHash) (b : Nat) : SpookyHash :=
  let buf2 := st.buf ++ [b % 256]
  if buf2.length = blockSize then
    let p := foldBlock (st.lane1, st.lane2) buf2
    { st with lane1 := p.1, lane2 := p.2, buf := [], totalLen := st.totalLen + 1 }
  else
    { st with buf := buf2, totalLen := st.totalLen + 1 }

/-- Modelled from the spec: `SpookyHash::Update(data, length)` — folds a
byte sequence into the state, buffering partial blocks and flushing full
ones ("carrying over only the bytes beyond the flushed block"). -/
def SpookyHash.Update (st : SpookyHash) (bs : List Nat) : SpookyHash :=
  bs.foldl pushByte st

/-- Modelled from the spec: `SpookyHash::Final(hash1, hash2)` — a pure
read of the state: pads the leftover partial block with the exact byte
length, folds it into the running state, runs two extra mixing rounds,
and reduces to the 128-bit pair. The stored state is not modified (the
C declaration takes `const Hasher*`). -/
def SpookyHash.Final (st : SpookyHash) : Nat × Nat :=
  let padded := st.buf ++ leBytes 8 st.totalLen
  let p := (words64 padded).foldl foldWord (st.lane1, st.lane2)
  let p := foldWord p 0x9e3779b97f4a7c15
  foldWord p 0x6a09e667f3bcc908

/-- Two's-complement reinterpretation of a signed value at width `w`
bits: the unique residue in `[0, 2 ^ w)` congruent to `v`. This is the
byte pattern `Update(&value, sizeof(value))` reads from a signed
argument. -/
def twosComplement (w : Nat) (v : Int) : Nat :=
  (v % ((2 : Int) ^ w)).toNat

/-- `Hasher_Init` from `Hash.cpp`: initializes the given storage with the
fixed seed pair — `get(hasher)->Init(0, 0xc4133)`. It takes no seed
arguments from the caller. -/
def Hasher_Init : Hasher := SpookyHash.Init 0 0xc4133

/-- `Hasher_Mix_UInt8` from `Hash.cpp`: `Update(&value, 1)`. -/
def Hasher_Mix_UInt8 (h : Hasher) (v : Nat) : Hasher :=
  h.Update (leBytes 1 v)

/-- `Hasher_Mix_UInt16` from `Hash.cpp`: `Update(&value, 2)`, the value's
bytes in the interface's little-endian convention. -/
def Hasher_Mix_UInt16 (h : Hasher) (v : Nat) : Hasher :=
  h.Update (leBytes 2 v)

/-- `Hasher_Mix_UInt32` from `Hash.cpp`: `Update(&value, 4)`. -/
def Hasher_Mix_UInt32 (h : Hasher) (v : Nat) : Hasher :=
  h.Update (leBytes 4 v)

/-- `Hasher_Mix_UInt64` from `Hash.cpp`: `Update(&value, 8)`. -/
def Hasher_Mix_UInt64 (h : Hasher) (v : Nat) : Hasher :=
  h.Update (leBytes 8 v)

/-- `Hasher_Mix_Int8` from `Hash.cpp`: `Update(&value, 1)` on a signed
value — the byte read is the two's-complement pattern. -/
def Hasher_Mix_Int8 (h : Hasher) (v : Int) : Hasher :=
  h.Update (leBytes 1 (twosComplement 8 v))

/-- `Hasher_Mix_Int16` from `Hash.cpp`: `Update(&value, 2)` on a signed
value. -/
def Hasher_Mix_Int16 (h : Hasher) (v : Int) : Hasher :=
  h.Update (leBytes 2 (twosComplement 16 v))

/-- `Hasher_Mix_Int32` from `Hash.cpp`: `Update(&value, 4)` on a signed
value. -/
def Hasher_Mix_Int32 (h : Hasher) (v : Int) : Hasher :=
  h.Update (leBytes 4 (twosComplement 32 v))

/-- `Hasher_Mix_Int64` from `Hash.cpp`: `Update(&value, 8)` on a signed
value. -/
def Hasher_Mix_Int64 (h : Hasher) (v : Int) : Hasher :=
  h.Update (leBytes 8 (twosComplement 64 v))

/-- `Hasher_Mix_UInt64_2` from `Hash.cpp`: puts the two words in an array
`{ hash1, hash2 }` and calls `Update(both, 16)` — i.e. the 16 bytes of
`hash1` then `hash2`, each little-endian. -/
def Hasher_Mix_UInt64_2 (h : Hasher) (hash1 hash2 : Nat) : Hasher :=
  h.Update (leBytes 8 hash1 ++ leBytes 8 hash2)

/-- `Hasher_Final` from `Hash.cpp`: `get(hasher)->Final(hash1, hash2)`. -/
def Hasher_Final (h : Hasher) : Nat × Nat :=
  h.Final

/-- `Hasher_Final` as a call on the stored state: the C function takes a
`const Hasher*` and writes only through the two output pointers, so a
call returns the digest and leaves the stored state as it was. -/
def Hasher_Final_call (h : Hasher) : (Nat × Nat) × Hasher :=
  (h.Final, h)

/-- One call of the `Hasher_Mix_*` family, as data: the nine entry points
of `Hash.h`. -/
inductive MixOp where
  | u8 (v : Nat)
  | u16 (v : Nat)
  | u32 (v : Nat)
  | u64 (v : Nat)
  | i8 (v : Int)
  | i16 (v : Int)
  | i32 (v : Int)
  | i64 (v : Int)
  | u64x2 (v w : Nat)
  deriving DecidableEq, Repr

/-- The bytes a mix call feeds to `Update`: the value's little-endian
representation at the call's width. -/
def opBytes : MixOp → List Nat
  | .u8 v => leBytes 1 v
  | .u16 v => leBytes 2 v
  | .u32 v => leBytes 4 v
  | .u64 v => leBytes 8 v
  | .i8 v => leBytes 1 (twosComplement 8 v)
  | .i16 v => leBytes 2 (twosComplement 16 v)
  | .i32 v => leBytes 4 (twosComplement 32 v)
  | .i64 v => leBytes 8 (twosComplement 64 v)
  | .u64x2 v w => leBytes 8 v ++ leBytes 8 w

/-- Dispatch one mix call to the wrapper function it names. -/
def applyOp (h : Hasher) : MixOp → Hasher
  | .u8 v => Hasher_Mix_UInt8 h v
  | .u16 v => Hasher_Mix_UInt16 h v
  | .u32 v => Hasher_Mix_UInt32 h v
  | .u64 v => Hasher_Mix_UInt64 h v
  | .i8 v => Hasher_Mix_Int8 h v
  | .i16 v => Hasher_Mix_Int16 h v
  | .i32 v => Hasher_Mix_Int32 h v
  | .i64 v => Hasher_Mix_Int64 h v
  | .u64x2 v w => Hasher_Mix_UInt64_2 h v w

/-- Run a sequence of mix calls left to right. -/
def runOps (h : Hasher) (ops : List MixOp) : Hasher :=
  ops.foldl applyOp h

/-- The byte stream a sequence of mix calls feeds to the hasher. -/
def opsBytes (ops : List MixOp) : List Nat :=
  (ops.map opBytes).flatten

/-- The number of bytes each mix entry point appends, per `sizeof` in
`Hash.cpp`. -/
def opWidth : MixOp → Nat
  | .u8 _ => 1
  | .u16 _ => 2
  | .u32 _ => 4
  | .u64 _ => 8
  | .i8 _ => 1
  | .i16 _ => 2
  | .i32 _ => 4
  | .i64 _ => 8
  | .u64x2 _ _ => 16

/-! Helper lemmas about the embedding. -/

theorem mod256_mod256 (x : Nat) : x % 256 % 256 = x % 256 := by omega

theorem leBytes_length (n : Nat) : ∀ v, (leBytes n v).length = n := by
  induction n with
  | zero => intro v; rfl
  | succ n ih => intro v; simp [leBytes, ih]

theorem leBytes_map_mod (n : Nat) : ∀ v, (leBytes n v).map (· % 256) = leBytes n v := by
  induction n with
  | zero => intro v; rfl
  | succ n ih => intro v; simp [leBytes, ih, mod256_mod256]

theorem leBytes_getD (n : Nat) : ∀ v i, i < n → (leBytes n v).getD i 0 = v / 256 ^ i % 256 := by
  induction n with
  | zero => intro v i h; omega
  | succ n ih =>
    intro v i h
    cases i with
    | zero => simp [leBytes]
    | succ i =>
      have step : (leBytes (n + 1) v).getD (i + 1) 0 = (leBytes n (v / 256)).getD i 0 := rfl
      rw [step, ih (v / 256) i (by omega), Nat.div_div_eq_div_mul, pow_succ,
        Nat.mul_comm (256 ^ i) 256]

theorem opBytes_length (op : MixOp) : (opBytes op).length = opWidth op := by
  cases op <;> simp [opBytes, opWidth, leBytes_length]

theorem opBytes_map_mod (op : MixOp) : (opBytes op).map (· % 256) = opBytes op := by
  cases op <;> simp [opBytes, leBytes_map_mod]

theorem Update_append (st : SpookyHash) (xs ys : List Nat) :
    st.Update (xs ++ ys) = (st.Update xs).Update ys := by
  simp [SpookyHash.Update, List.foldl_append]

theorem pushByte_totalLen (st : SpookyHash) (b : Nat) :
    (pushByte st b).totalLen = st.totalLen + 1 := by
  simp only [pushByte]
  split <;> rfl

theorem Update_totalLen (bs : List Nat) :
    ∀ st : SpookyHash, (st.Update bs).totalLen = st.totalLen + bs.length := by
  induction bs with
  | nil => intro st; rfl
  | cons b rest ih =>
    intro st
    have step : SpookyHash.Update st (b :: rest) = SpookyHash.Update (pushByte st b) rest := rfl
    rw [step, ih, pushByte_totalLen]
    simp only [List.length_cons]
    omega

theorem pushByte_buf_lt (st : SpookyHash) (b : Nat) (h : st.buf.length < blockSize) :
    (pushByte st b).buf.length < blockSize := by
  simp only [pushByte]
  split
  · simp [blockSize]
  · next hne =>
    simp only [List.length_append, List.length_cons, List.length_nil] at hne ⊢
    simp only [blockSize] at *
    omega

theorem Update_buf_lt (bs : List Nat) :
    ∀ st : SpookyHash, st.buf.length < blockSize → (st.Update bs).buf.length < blockSize := by
  induction bs with
  | nil => intro st h; exact h
  | cons b rest ih =>
    intro st h
    have step : SpookyHash.Update st (b :: rest) = SpookyHash.Update (pushByte st b) rest := rfl
    rw [step]
    exact ih _ (pushByte_buf_lt st b h)

theorem pushByte_no_flush (st : SpookyHash) (b : Nat) (h : st.buf.length + 1 < blockSize) :
    pushByte st b = { st with buf := st.buf ++ [b % 256], totalLen := st.totalLen + 1 } := by
  simp only [pushByte]
  rw [if_neg]
  simp only [List.length_append, List.length_cons, List.length_nil, blockSize] at h ⊢
  omega

theorem Update_no_flush (bs : List Nat) :
    ∀ st : SpookyHash, st.buf.length + bs.length < blockSize →
      (st.Update bs).buf = st.buf ++ bs.map (· % 256) ∧
      (st.Update bs).lane1 = st.lane1 ∧ (st.Update bs).lane2 = st.lane2 := by
  induction bs with
  | nil => intro st h; exact ⟨(List.append_nil st.buf).symm, rfl, rfl⟩
  | cons b rest ih =>
    intro st h
    have step : SpookyHash.Update st (b :: rest) = SpookyHash.Update (pushByte st b) rest := rfl
    have hlen : st.buf.length + 1 < blockSize := by
      simp only [List.length_cons] at h
      omega
    rw [step, pushByte_no_flush st b hlen]
    have hrest := ih { st with buf := st.buf ++ [b % 256], totalLen := st.totalLen + 1 }
      (by simp only [List.length_append, List.length_cons, List.length_nil]
          simp only [List.length_cons] at h
          omega)
    refine ⟨?_, hrest.2⟩
    rw [hrest.1]
    simp [List.append_assoc]

theorem applyOp_eq_Update (h : Hasher) (op : MixOp) : applyOp h op = h.Update (opBytes op) := by
  cases op <;> rfl

theorem runOps_eq_Update (ops : List MixOp) :
    ∀ h : Hasher, runOps h ops = h.Update (opsBytes ops) := by
  induction ops with
  | nil => intro h; rfl
  | cons op rest ih =>
    intro h
    have step : runOps h (op :: rest) = runOps (applyOp h op) rest := rfl
    have hb : opsBytes (op :: rest) = opBytes op ++ opsBytes rest := by
      simp [opsBytes]
    rw [step, ih, hb, Update_append, applyOp_eq_Update]

/-! Claim theorems. -/

/-- C1, as stated, is false on the code: the exposed `Hasher_Init` takes
no seed arguments from the caller, so it does not realize the
seed-parameterized initialization at any caller-chosen seed pair other
than the hard-coded one. Concretely, `Hasher_Init` is the seeded
initialization at the fixed pair `(0, 0xc4133)` and differs from the
seeded initialization at `(1, 0xc4133)`. -/
theorem C1_counterexample :
    Hasher_Init = SpookyHash.Init 0 0xc4133 ∧ Hasher_Init ≠ SpookyHash.Init 1 0xc4133 :=
  ⟨rfl, by decide⟩

/-- C1 (amended): `Hasher_Init` takes no seeds from the caller and always
initializes the accumulator with the fixed seed pair `(0, 0xc4133)`; the
underlying seeded initialization establishes the running-state words as
a fixed deterministic function of its two seeds, and distinct seed pairs
yield different digests for the same mixed-byte sequence (witnessed at
seeds `(0, 0xc4133)` versus `(1, 0xc4133)`). -/
theorem C1_init_fixed_seed_pair :
    Hasher_Init = SpookyHash.Init 0 0xc4133 ∧
    (∀ s1 s2 : Nat, (SpookyHash.Init s1 s2).lane1 = s1 % 2 ^ 64 ∧
      (SpookyHash.Init s1 s2).lane2 = s2 % 2 ^ 64) ∧
    Hasher_Final (Hasher_Mix_UInt32 (SpookyHash.Init 0 0xc4133) 42) ≠
      Hasher_Final (Hasher_Mix_UInt32 (SpookyHash.Init 1 0xc4133) 42) :=
  ⟨rfl, fun _ _ => ⟨rfl, rfl⟩, by decide⟩

/-- C2: mixing a 16-, 32- or 64-bit value yields exactly the same hasher
state as mixing its constituent bytes as sequential 8-bit mixes in
little-endian order, and the paired 64-bit mix equals two sequential
single 64-bit mixes. -/
theorem C2_byte_stream_equivalence (h : Hasher) (v w : Nat) :
    Hasher_Mix_UInt16 h v =
      Hasher_Mix_UInt8 (Hasher_Mix_UInt8 h (v % 256)) (v / 256 % 256) ∧
    Hasher_Mix_UInt32 h v =
      Hasher_Mix_UInt8 (Hasher_Mix_UInt8 (Hasher_Mix_UInt8 (Hasher_Mix_UInt8 h
        (v % 256)) (v / 256 % 256)) (v / 256 / 256 % 256)) (v / 256 / 256 / 256 % 256) ∧
    Hasher_Mix_UInt64 h v =
      Hasher_Mix_UInt8 (Hasher_Mix_UInt8 (Hasher_Mix_UInt8 (Hasher_Mix_UInt8
        (Hasher_Mix_UInt8 (Hasher_Mix_UInt8 (Hasher_Mix_UInt8 (Hasher_Mix_UInt8 h
          (v % 256)) (v / 256 % 256)) (v / 256 / 256 % 256)) (v / 256 / 256 / 256 % 256))
          (v / 256 / 256 / 256 / 256 % 256)) (v / 256 / 256 / 256 / 256 / 256 % 256))
          (v / 256 / 256 / 256 / 256 / 256 / 256 % 256))
          (v / 256 / 256 / 256 / 256 / 256 / 256 / 256 % 256) ∧
    Hasher_Mix_UInt64_2 h v w = Hasher_Mix_UInt64 (Hasher_Mix_UInt64 h v) w := by
  refine ⟨?_, ?_, ?_, ?_⟩
  · simp [Hasher_Mix_UInt16, Hasher_Mix_UInt8, SpookyHash.Update, leBytes, mod256_mod256]
  · simp [Hasher_Mix_UInt32, Hasher_Mix_UInt8, SpookyHash.Update, leBytes, mod256_mod256]
  · simp [Hasher_Mix_UInt64, Hasher_Mix_UInt8, SpookyHash.Update, leBytes, mod256_mod256]
  · rw [Hasher_Mix_UInt64_2, Update_append]
    rfl

/-- C3: `Hasher_Final` is a pure read: calling it leaves the stored state
identical, two consecutive calls return the identical pair, and a mix
performed after a final affects a later final exactly as if the earlier
final had not happened. -/
theorem C3_final_is_pure_read (h : Hasher) (op : MixOp) :
    (Hasher_Final_call h).2 = h ∧
    (Hasher_Final_call ((Hasher_Final_call h).2)).1 = (Hasher_Final_call h).1 ∧
    Hasher_Final (applyOp ((Hasher_Final_call h).2) op) = Hasher_Final (applyOp h op) :=
  ⟨rfl, rfl, rfl⟩

/-- C4: the digest is a deterministic pure function of the seed pair and
the ordered sequence of mixed bytes: two runs from the same seeds whose
mix-call sequences feed the same byte stream produce the same pair. -/
theorem C4_digest_deterministic (s1 s2 : Nat) (ops1 ops2 : List MixOp)
    (hb : opsBytes ops1 = opsBytes ops2) :
    Hasher_Final (runOps (SpookyHash.Init s1 s2) ops1) =
      Hasher_Final (runOps (SpookyHash.Init s1 s2) ops2) := by
  rw [runOps_eq_Update, runOps_eq_Update, hb]

/-- C4 witness: one 32-bit mix of `42` and four 8-bit mixes of its bytes
feed the same byte stream, hence yield the same digest. -/
theorem C4_digest_deterministic_witness :
    Hasher_Final (runOps (SpookyHash.Init 0 0xc4133) [MixOp.u32 42]) =
      Hasher_Final (runOps (SpookyHash.Init 0 0xc4133)
        [MixOp.u8 42, MixOp.u8 0, MixOp.u8 0, MixOp.u8 0]) :=
  C4_digest_deterministic 0 0xc4133 _ _ (by decide)

/-- C5: after the fixed-seed init, mixing the 32-bit value `42` then the
64-bit value `7` and finalizing yields a fixed, reproducible 128-bit
digest; that digest differs from the one obtained by mixing `7` then
`42`, and from the one obtained from seeds `(1, 0xc4133)` on the same
input sequence. -/
theorem C5_end_to_end_example :
    Hasher_Final (Hasher_Mix_UInt64 (Hasher_Mix_UInt32 Hasher_Init 42) 7) =
      (1678049082692739658, 12409569440437833037) ∧
    Hasher_Final (Hasher_Mix_UInt64 (Hasher_Mix_UInt32 Hasher_Init 42) 7) ≠
      Hasher_Final (Hasher_Mix_UInt32 (Hasher_Mix_UInt64 Hasher_Init 7) 42) ∧
    Hasher_Final (Hasher_Mix_UInt64 (Hasher_Mix_UInt32 Hasher_Init 42) 7) ≠
      Hasher_Final (Hasher_Mix_UInt64 (Hasher_Mix_UInt32 (SpookyHash.Init 1 0xc4133) 42) 7) :=
  ⟨by decide, by decide, by decide⟩

/-- C6: every mix call feeds `Update` the value's little-endian byte
representation — byte `i` of an `n`-byte value `v` is
`v / 256 ^ i % 256` — and, when the bytes fit without filling the
buffer to the block size, they are appended verbatim to the pending
buffer. -/
theorem C6_mix_appends_le_bytes (h : Hasher) (op : MixOp)
    (hlen : h.buf.length + (opBytes op).length < blockSize) :
    (applyOp h op).buf = h.buf ++ opBytes op ∧
    applyOp h op = h.Update (opBytes op) ∧
    (∀ n v i : Nat, i < n → (leBytes n v).getD i 0 = v / 256 ^ i % 256) := by
  refine ⟨?_, applyOp_eq_Update h op, fun n v i hi => leBytes_getD n v i hi⟩
  rw [applyOp_eq_Update]
  rw [(Update_no_flush (opBytes op) h hlen).1, opBytes_map_mod]

/-- C6 witness: mixing the 32-bit value `42` into a fresh hasher appends
its four little-endian bytes to the empty pending buffer. -/
theorem C6_mix_appends_le_bytes_witness :
    (applyOp Hasher_Init (MixOp.u32 42)).buf = Hasher_Init.buf ++ opBytes (MixOp.u32 42) :=
  (C6_mix_appends_le_bytes Hasher_Init (MixOp.u32 42) (by decide)).1

/-- C7: the pending-buffer byte-count stays strictly below the block size
between calls: it holds after `Init`, is preserved by every mix call,
is untouched by `Final`, and whenever one more byte would fill the
buffer to the block size the full block is folded into the running
state and the buffer reset. -/
theorem C7_buffer_bound_invariant (h : Hasher) (op : MixOp)
    (hlt : h.buf.length < blockSize) :
    (applyOp h op).buf.length < blockSize ∧
    Hasher_Init.buf.length < blockSize ∧
    (Hasher_Final_call h).2.buf.length < blockSize ∧
    (∀ (g : Hasher) (b : Nat), g.buf.length + 1 = blockSize →
      (pushByte g b).buf = [] ∧
      ((pushByte g b).lane1, (pushByte g b).lane2) =
        foldBlock (g.lane1, g.lane2) (g.buf ++ [b % 256])) := by
  refine ⟨?_, by decide, hlt, ?_⟩
  · rw [applyOp_eq_Update]
    exact Update_buf_lt (opBytes op) h hlt
  · intro g b hg
    simp only [pushByte]
    rw [if_pos (by simp only [List.length_append, List.length_cons, List.length_nil]; omega)]
    exact ⟨rfl, rfl⟩

/-- C7 witness: mixing one byte into a fresh hasher keeps the pending
buffer below the block size. -/
theorem C7_buffer_bound_invariant_witness :
    (applyOp Hasher_Init (MixOp.u8 7)).buf.length < blockSize :=
  (C7_buffer_bound_invariant Hasher_Init (MixOp.u8 7) (by decide)).1

/-- C8: every mix call is total — defined for every scalar value and
every hasher state, with no error path — it returns a new state of the
same hasher (no other state is involved), and the total-length counter
increases by exactly the number of bytes appended (the call's width). -/
theorem C8_mix_total_length (h : Hasher) (op : MixOp) :
    (applyOp h op).totalLen = h.totalLen + (opBytes op).length ∧
    (opBytes op).length = opWidth op := by
  refine ⟨?_, opBytes_length op⟩
  rw [applyOp_eq_Update]
  exact Update_totalLen (opBytes op) h

/-- C10: each signed mix variant produces exactly the same hasher state
as the unsigned variant of the same width applied to the value's
two's-complement reinterpretation — the unique residue in
`[0, 2 ^ w)` congruent to the signed value mod `2 ^ w`. -/
theorem C10_signed_mix_is_twos_complement (h : Hasher) (v : Int) :
    Hasher_Mix_Int8 h v = Hasher_Mix_UInt8 h (twosComplement 8 v) ∧
    Hasher_Mix_Int16 h v = Hasher_Mix_UInt16 h (twosComplement 16 v) ∧
    Hasher_Mix_Int32 h v = Hasher_Mix_UInt32 h (twosComplement 32 v) ∧
    Hasher_Mix_Int64 h v = Hasher_Mix_UInt64 h (twosComplement 64 v) ∧
    (∀ w : Nat, twosComplement w v < 2 ^ w ∧
      (twosComplement w v : Int) = v % ((2 : Int) ^ w)) := by
  refine ⟨rfl, rfl, rfl, rfl, fun w => ⟨?_, ?_⟩⟩
  · have hpow : ((2 ^ w : Nat) : Int) = (2 : Int) ^ w := by push_cast; ring
    rw [twosComplement, Int.toNat_lt' (by positivity), hpow]
    exact Int.emod_lt_of_pos v (by positivity)
  · exact Int.toNat_of_nonneg (Int.emod_nonneg v (by positivity))
